import Mathlib

/-!
Formal model of the import-extraction and dependency-resolution engine of
`import-visualizer` (`src/vis.py`).

Modelling conventions:
* Python strings are `List Char` (`PyName`); bytes of a code object are `Nat`.
* Fallible Python code (IndexError, TypeError, IOError/SyntaxError) is
  modelled with `Option`: `Option.none` means the Python code raises.
* The standard-library classifier `is_std_lib_module` lives in `libinfo`,
  which the specification treats as an out-of-scope boolean oracle; it is a
  parameter `is_std : PyName → Bool` of the resolver here.
* Python `dict` values keyed by insertion order are association lists.
-/

/-- A Python string (module names, member names, paths). -/
abbrev PyName := List Char

/- ------------------------------------------------------------------
Opcode constants (`vis.py` lines 22-30).  The script reads them from the
running interpreter's `dis` module; the numeric values below are those of
the target CPython 3.x runtime.
------------------------------------------------------------------ -/

/-- Opcode LOAD_CONST. -/
def LOAD_CONST : Nat := 100

/-- Opcode IMPORT_NAME. -/
def IMPORT_NAME : Nat := 108

/-- Opcode STORE_NAME. -/
def STORE_NAME : Nat := 90

/-- Opcode STORE_GLOBAL. -/
def STORE_GLOBAL : Nat := 97

/-- Opcode POP_TOP (defined by the script but unused in its logic). -/
def POP_TOP : Nat := 1

/-- Opcode POP_BLOCK (defined by the script but unused in its logic). -/
def POP_BLOCK : Nat := 87

/-- Opcode EXTENDED_ARG. -/
def EXTENDED_ARG : Nat := 144

/-- Threshold: opcodes `≥ HAVE_ARGUMENT` carry an argument. -/
def HAVE_ARGUMENT : Nat := 90

/- ------------------------------------------------------------------
Instruction decoder `_unpack_opargs` (`vis.py` lines 129-155).
------------------------------------------------------------------ -/

/-- Python-3 branch of `_unpack_opargs` (lines 134-143): fixed two bytes per
instruction, EXTENDED_ARG accumulator `ext`.  `Option.none` models the
IndexError raised by `code[i+1]` on an odd-length stream. -/
def py3_go (s : List Nat) (i : Nat) (ext : Nat) : Option (List (Nat × Nat × Option Nat)) :=
  match s with
  | [] => some []
  | [op] =>
    if HAVE_ARGUMENT ≤ op then Option.none
    else some [(i, op, Option.none)]
  | op :: b :: rest =>
    if HAVE_ARGUMENT ≤ op then
      let arg := b ||| ext
      (py3_go rest (i + 2) (if op = EXTENDED_ARG then arg <<< 8 else 0)).map
        (fun tl => (i, op, some arg) :: tl)
    else
      (py3_go rest (i + 2) ext).map (fun tl => (i, op, Option.none) :: tl)

/-- Python-2 branch of `_unpack_opargs` (lines 144-154): `while i < len(code)`,
argument-bearing opcodes read `ord(code[i+1])` and do `i += 3`, others do
`i += 1`; the triple is yielded after the increment.  `Option.none` models
the IndexError of `code[i+1]` when only one byte remains. -/
def py2_go (s : List Nat) (i : Nat) : Option (List (Nat × Nat × Option Nat)) :=
  match s with
  | [] => some []
  | op :: rest =>
    if HAVE_ARGUMENT ≤ op then
      match rest with
      | [] => Option.none
      | [b] => some [(i + 3, op, some b)]
      | b :: _ :: rest3 => (py2_go rest3 (i + 3)).map (fun tl => (i + 3, op, some b) :: tl)
    else
      (py2_go rest (i + 1)).map (fun tl => (i + 1, op, Option.none) :: tl)

/-- `_unpack_opargs` (lines 129-155), dispatching on the interpreter major
version; any other version yields the empty sequence (the generator body
falls through). -/
def unpack_opargs (py_version : Nat) (code : List Nat) : Option (List (Nat × Nat × Option Nat)) :=
  if py_version = 3 then py3_go code 0 0
  else if py_version = 2 then py2_go code 0
  else some []

/-- Decoder of the claimed legacy behaviour, written from the specification's
words (not from the source): an argument-bearing instruction consumes 3
bytes, the next two bytes after the instruction code form its argument
(low byte first, as in the actual legacy runtime encoding), an argument-less
instruction consumes 1 byte, and each triple carries the offset of the
instruction itself. -/
def py2_go_claimed (s : List Nat) (i : Nat) : Option (List (Nat × Nat × Option Nat)) :=
  match s with
  | [] => some []
  | op :: rest =>
    if HAVE_ARGUMENT ≤ op then
      match rest with
      | b1 :: b2 :: rest3 =>
        (py2_go_claimed rest3 (i + 3)).map (fun tl => (i, op, some (b1 + 256 * b2)) :: tl)
      | _ => Option.none
    else
      (py2_go_claimed rest (i + 1)).map (fun tl => (i, op, Option.none) :: tl)

/- ------------------------------------------------------------------
Scanner `scan_opcodes` (`vis.py` lines 158-197).
------------------------------------------------------------------ -/

/-- Constants from a code object's `co_consts` table, as far as the scanner
and resolver observe them: `None`, ints, strings, and tuples of strings.
(Python tuples and lists of strings are both `strTuple` here: downstream
code only tests truthiness and iterates them.) -/
inductive Const where
  | pynone : Const
  | int : Int → Const
  | str : PyName → Const
  | strTuple : List PyName → Const
deriving DecidableEq

/-- Python truthiness for the constants above. -/
def pyTruthy : Const → Bool
  | Const.pynone => false
  | Const.int i => decide (i ≠ 0)
  | Const.str s => decide (s ≠ [])
  | Const.strTuple l => decide (l ≠ [])

/-- Python `==` between one of these constants and an integer literal. -/
def pyEqInt (c : Const) (k : Int) : Bool :=
  match c with
  | Const.int i => decide (i = k)
  | _ => false

/-- `fromlist = consts[...] or []` (line 192): a falsy constant is replaced
by the empty list. -/
def normFromlist (c : Const) : Const :=
  if pyTruthy c then c else Const.strTuple []

/-- The scanner's events (`vis.py` lines 33-35 and the yields at lines
187, 194, 196).  `fromlist` and `level` are the raw constants the scanner
read from `co_consts` (after the `or []` normalization of the fromlist). -/
inductive ScanEvent where
  | store : PyName → ScanEvent
  | absImport : Const → PyName → ScanEvent
  | relImport : Const → Const → PyName → ScanEvent
deriving DecidableEq

/-- Projection of decoded triples to the `(op, arg)` list the scanner walks,
dropping EXTENDED_ARG entries (`vis.py` lines 183-184). -/
def toOpargs (l : List (Nat × Nat × Option Nat)) : List (Nat × Option Nat) :=
  (l.filter (fun t => t.2.1 ≠ EXTENDED_ARG)).map (fun t => t.2)

/-- The import-instruction payload of the scanner (lines 191-196):
`level = consts[opargs[i-2][1]]`, `fromlist = consts[opargs[i-1][1]] or []`,
target `names[oparg]`; level `0` or `-1` means absolute, anything else
relative.  `Option.none` models IndexError/TypeError of the lookups. -/
def importEvent (names : List PyName) (consts : List Const)
    (oparg arg1 arg2 : Option Nat) : Option (List ScanEvent) :=
  match arg2 with
  | Option.none => Option.none
  | some a2 =>
    match consts.get? a2 with
    | Option.none => Option.none
    | some level =>
      match arg1 with
      | Option.none => Option.none
      | some a1 =>
        match consts.get? a1 with
        | Option.none => Option.none
        | some flc =>
          match oparg with
          | Option.none => Option.none
          | some a =>
            match names.get? a with
            | Option.none => Option.none
            | some nm =>
              if pyEqInt level 0 ∨ pyEqInt level (-1) then
                some [ScanEvent.absImport (normFromlist flc) nm]
              else
                some [ScanEvent.relImport level (normFromlist flc) nm]

/-- Events yielded by one iteration `i` of the scanner loop (lines 185-197):
a store opcode yields `Store(names[oparg])`; IMPORT_NAME preceded (at `i-1`
and `i-2`) by two LOAD_CONST entries yields one import event; everything
else yields nothing. -/
def scanAt (names : List PyName) (consts : List Const)
    (opargs : List (Nat × Option Nat)) (i : Nat) : Option (List ScanEvent) :=
  match opargs.get? i with
  | Option.none => some []
  | some (op, oparg) =>
    if op = STORE_NAME ∨ op = STORE_GLOBAL then
      match oparg with
      | Option.none => Option.none
      | some a =>
        match names.get? a with
        | Option.none => Option.none
        | some nm => some [ScanEvent.store nm]
    else if op = IMPORT_NAME then
      if 2 ≤ i then
        match opargs.get? (i - 1), opargs.get? (i - 2) with
        | some (op1, arg1), some (op2, arg2) =>
          if op1 = LOAD_CONST ∧ op2 = LOAD_CONST then
            importEvent names consts oparg arg1 arg2
          else some []
        | _, _ => some []
      else some []
    else some []

/-- The guard of line 189-190 as a predicate: position `j` holds an import
instruction preceded (at `j-1`, `j-2`) by two LOAD_CONST entries. -/
def importPreceded (opargs : List (Nat × Option Nat)) (j : Nat) : Bool :=
  if 2 ≤ j then
    match opargs.get? (j - 1), opargs.get? (j - 2) with
    | some p, some q => decide (p.1 = LOAD_CONST ∧ q.1 = LOAD_CONST)
    | _, _ => false
  else false

/-- The scanner loop (`for i, (op, oparg) in enumerate(opargs)`), iterated
structurally over a suffix of `opargs` that drives the iteration count while
`i` tracks the enumeration index: concatenation of the events of each
iteration, aborting on the first raised exception. -/
def scanGo (names : List PyName) (consts : List Const)
    (opargs : List (Nat × Option Nat)) :
    List (Nat × Option Nat) → Nat → Option (List ScanEvent)
  | [], _ => some []
  | _ :: rest, i =>
    match scanAt names consts opargs i with
    | Option.none => Option.none
    | some evs => (scanGo names consts opargs rest (i + 1)).map (fun tl => evs ++ tl)

/-- The full scanner loop over an oparg list. -/
def scanFromOpargs (names : List PyName) (consts : List Const)
    (opargs : List (Nat × Option Nat)) : Option (List ScanEvent) :=
  scanGo names consts opargs opargs 0

/-- `scan_opcodes` (lines 158-197): decode, drop EXTENDED_ARG entries, scan. -/
def scan_opcodes (py_version : Nat) (names : List PyName) (consts : List Const)
    (code : List Nat) : Option (List ScanEvent) :=
  match unpack_opargs py_version code with
  | Option.none => Option.none
  | some l => scanFromOpargs names consts (toOpargs l)

/- ------------------------------------------------------------------
Dependency resolver `get_fq_immediate_deps` (`vis.py` lines 200-240).
------------------------------------------------------------------ -/

/-- Boolean list membership on names (Python `in` on a dict's keys). -/
def memB (x : PyName) : List PyName → Bool
  | [] => false
  | y :: ys => if x = y then true else memB x ys

/-- A module's direct imports: ordered dict from fully-qualified dependency
name to the list of values appended under it.  An entry `Option.none`
models the empty list `[]` the Python code appends to mean that the module
itself was imported; `some n` models an appended member name `n`. -/
abbrev DirectImports := List (PyName × List (Option PyName))

/-- `fq_deps[k].append(v)` on a `defaultdict(list)`: appends `v` under key
`k`, creating the key at the end of the key order if absent. -/
def dAppend (d : DirectImports) (k : PyName) (v : Option PyName) : DirectImports :=
  match d with
  | [] => [(k, [v])]
  | (k', vs) :: rest =>
    if k' = k then (k', vs ++ [v]) :: rest else (k', vs) :: dAppend rest k v

/-- The value list stored under key `k` (empty if the key is absent). -/
def dFind (d : DirectImports) (k : PyName) : List (Option PyName) :=
  match d with
  | [] => []
  | (k', vs) :: rest => if k' = k then vs else dFind rest k

/-- Whether `k` is a key of the dict. -/
def dHasKey (d : DirectImports) (k : PyName) : Bool :=
  match d with
  | [] => false
  | (k', _) :: rest => if k' = k then true else dHasKey rest k

/-- `top.split('.')[0]`: the top-level dotted segment. -/
def topSegment (s : PyName) : PyName := s.takeWhile (fun c => c ≠ '.')

/-- Python iteration over a fromlist constant: a tuple/list yields its
elements, a string yields its characters as one-character strings, and
`None`/ints are not iterable (`Option.none` models the TypeError). -/
def iterConst : Const → Option (List PyName)
  | Const.strTuple l => some l
  | Const.str s => some (s.map (fun c => [c]))
  | _ => Option.none

/-- Per-name step of the resolver (lines 229-234): `fq_name = top + '.' + name`;
if `fq_name` is a project module record an empty-import marker under
`fq_name`, otherwise append the member name under `top`. -/
def processName (all_mods : List PyName) (top : PyName)
    (d : DirectImports) (n : PyName) : DirectImports :=
  let fq_name := top ++ '.' :: n
  if memB fq_name all_mods then dAppend d fq_name Option.none
  else dAppend d top (some n)

/-- Per-event step of the resolver (lines 216-238): `Store` and
`RelativeImport` events are accepted but unresolved (TODO stubs in the
source); an `AbsoluteImport` is discarded when its target's top segment is
standard-library and the target is not a project module, and otherwise
processed per line 226-234.  `Option.none` models the TypeError of
iterating a non-sequence fromlist. -/
def processEvent (is_std : PyName → Bool) (all_mods : List PyName)
    (d : DirectImports) : ScanEvent → Option DirectImports
  | ScanEvent.store _ => some d
  | ScanEvent.relImport _ _ _ => some d
  | ScanEvent.absImport fl top =>
    if !is_std (topSegment top) || memB top all_mods then
      let d1 := if !pyTruthy fl then dAppend d top Option.none else d
      match iterConst fl with
      | Option.none => Option.none
      | some ns => some (ns.foldl (processName all_mods top) d1)
    else some d

/-- The resolver loop over the scanned events, threading the
`defaultdict(list)` accumulator and aborting on a raised exception. -/
def runEvents (is_std : PyName → Bool) (all_mods : List PyName) :
    DirectImports → List ScanEvent → Option DirectImports
  | d, [] => some d
  | d, e :: es =>
    match processEvent is_std all_mods d e with
    | Option.none => Option.none
    | some d' => runEvents is_std all_mods d' es

/-- `get_fq_immediate_deps` (lines 200-240) over the scanned event stream of
one module: fold the events into an initially empty dict. -/
def get_fq_immediate_deps (is_std : PyName → Bool) (all_mods : List PyName)
    (events : List ScanEvent) : Option DirectImports :=
  runEvents is_std all_mods [] events

/- ------------------------------------------------------------------
Modules and `add_immediate_deps_to_modules` (`vis.py` lines 118-126, 243-250).
------------------------------------------------------------------ -/

/-- A discovered module.  `scanned` abstracts lines 213-216 of
`get_fq_immediate_deps`: `some evs` is the event stream obtained by
opening, compiling and scanning the module's source file; `Option.none`
models the IOError/SyntaxError raised when the file cannot be opened or
fails to compile. -/
structure PyModule where
  name : PyName
  scanned : Option (List ScanEvent)
deriving DecidableEq

/-- `get_fq_immediate_deps` on a module: opening/compiling may raise, then
the event stream is resolved. -/
def get_fq_immediate_deps_mod (is_std : PyName → Bool) (all_mods : List PyName)
    (m : PyModule) : Option DirectImports :=
  match m.scanned with
  | Option.none => Option.none
  | some evs => get_fq_immediate_deps is_std all_mods evs

/-- Lexicographic `≤` on Python strings (character code points). -/
def nameLe : PyName → PyName → Bool
  | [], _ => true
  | _ :: _, [] => false
  | a :: as, b :: bs => if a = b then nameLe as bs else decide (a < b)

/-- Insertion step of sorting the module dict items by name. -/
def insertByName (m : PyModule) : List PyModule → List PyModule
  | [] => [m]
  | x :: xs => if nameLe m.name x.name then m :: x :: xs else x :: insertByName m xs

/-- `sorted(mod_dict.items())` (line 248): the modules in name order. -/
def sortByName : List PyModule → List PyModule
  | [] => []
  | m :: ms => insertByName m (sortByName ms)

/-- The loop body of `add_immediate_deps_to_modules`: resolve each module in
turn, recording its `direct_imports`; an exception raised for one module
propagates and aborts the whole loop. -/
def addDepsGo (is_std : PyName → Bool) (all_mods : List PyName) :
    List PyModule → List (PyName × DirectImports) →
    Option (List (PyName × DirectImports))
  | [], acc => some acc
  | m :: ms, acc =>
    match get_fq_immediate_deps_mod is_std all_mods m with
    | Option.none => Option.none
    | some d => addDepsGo is_std all_mods ms (acc ++ [(m.name, d)])

/-- `add_immediate_deps_to_modules` (lines 243-250): iterate the sorted
module dict, attaching each module's resolved `direct_imports`. -/
def add_immediate_deps_to_modules (is_std : PyName → Bool) (mods : List PyModule) :
    Option (List (PyName × DirectImports)) :=
  addDepsGo is_std (mods.map PyModule.name) (sortByName mods) []

/- ------------------------------------------------------------------
Whole-tree discovery name computation (`vis.py` lines 95-115).
------------------------------------------------------------------ -/

/-- Byte-wise prefix test (`str.startswith`-style helper for `in`). -/
def strPre (pat s : PyName) : Bool :=
  match pat, s with
  | [], _ => true
  | _ :: _, [] => false
  | a :: as, b :: bs => if a = b then strPre as bs else false

/-- Python substring test `pat in s`. -/
def strContains (pat : PyName) : PyName → Bool
  | [] => strPre pat []
  | c :: rest => strPre pat (c :: rest) || strContains pat rest

/-- Fuel-indexed body of Python `str.replace`: left-to-right, non-overlapping
replacement of `pat` by `rep`.  One unit of fuel is spent per consumed
character or match, so `s.length` fuel always suffices for nonempty `pat`. -/
def replaceAllGo (pat rep : PyName) : PyName → Nat → PyName
  | s, 0 => s
  | s, Nat.succ fuel =>
    if pat ≠ [] ∧ strPre pat s then rep ++ replaceAllGo pat rep (s.drop pat.length) fuel
    else
      match s with
      | [] => []
      | c :: rest => c :: replaceAllGo pat rep rest fuel

/-- Python `s.replace(pat, rep)` for nonempty `pat`. -/
def replaceAll (pat rep s : PyName) : PyName := replaceAllGo pat rep s s.length

/-- `.replace('/', '.')` (line 109). -/
def slashToDot (s : PyName) : PyName := s.map (fun c => if c = '/' then '.' else c)

/-- The canonical-name computation of `get_modules_in_dir` (lines 109-111)
as a function of the file path relative to the root (the slice
`mod_file[len(root_dir) + 1:]`): replace separators by dots, strip the
last three characters (`.py`), and if the result contains `__init__`,
remove every `.__init__` substring. -/
def mod_name_in_dir (rel : PyName) : PyName :=
  let m := slashToDot rel
  let s := m.take (m.length - 3)
  if strContains "__init__".data s then replaceAll ".__init__".data [] s else s

/-- Splitting a path on `/` (helper for the claimed name computation). -/
def splitSlash : PyName → List PyName
  | [] => [[]]
  | c :: rest =>
    let r := splitSlash rest
    if c = '/' then [] :: r
    else
      match r with
      | [] => [[c]]
      | g :: gs => (c :: g) :: gs

/-- Canonical-name computation written from the specification's words (not
from the source): take the path relative to the root, split into segments,
strip the `.py` suffix from the file segment, collapse a trailing
`__init__` segment into its parent, and join with dots. -/
def mod_name_claimed (rel : PyName) : PyName :=
  let segs := splitSlash rel
  let last := (segs.getLast?).getD []
  let stem := last.take (last.length - 3)
  let segs2 := segs.dropLast ++ (if stem = "__init__".data then [] else [stem])
  List.intercalate ['.'] segs2

/- ------------------------------------------------------------------
Graph assembly `mod_dict_to_dag` (`vis.py` lines 253-269).
------------------------------------------------------------------ -/

/-- The observable state of the assembled graphviz digraph: the explicitly
injected (vendor) nodes with their external mark, the edges with their
external mark, and the `vendor_mods` bookkeeping set. -/
structure Dag where
  nodes : List (PyName × Bool)
  edges : List (PyName × PyName × Bool)
  vendor : List PyName

/-- Inner loop body of `mod_dict_to_dag` (lines 260-268): one direct import
`di` of module `nm`.  A dependency outside the module dict gets the
external (blue) attributes; its node is injected only on first sight. -/
def addImport (keys : List PyName) (nm : PyName) (st : Dag) (di : PyName) : Dag :=
  if memB di keys then
    { st with edges := st.edges ++ [(nm, di, false)] }
  else
    let st1 :=
      if memB di st.vendor then st
      else { st with nodes := st.nodes ++ [(di, true)], vendor := st.vendor ++ [di] }
    { st1 with edges := st1.edges ++ [(nm, di, true)] }

/-- `mod_dict_to_dag` (lines 253-269) over the module dict with each
module's resolved direct-import keys. -/
def mod_dict_to_dag (mod_dict : List (PyName × List PyName)) : Dag :=
  mod_dict.foldl
    (fun st p => p.2.foldl (addImport (mod_dict.map Prod.fst) p.1) st)
    ⟨[], [], []⟩

/-- Invariant of the graph-assembly state: every edge's flag is the
externality of its target, every injected node is external and marked so,
node names are unique, and `vendor_mods` is exactly the injected node
names. -/
def DagInv (keys : List PyName) (st : Dag) : Prop :=
  (∀ s t f, (s, t, f) ∈ st.edges → f = !(memB t keys)) ∧
  (∀ nd f, (nd, f) ∈ st.nodes → f = true ∧ memB nd keys = false) ∧
  (st.nodes.map Prod.fst).Nodup ∧
  st.vendor = st.nodes.map Prod.fst

/- ==================================================================
Theorems
================================================================== -/

/-- C2 (counterexample): on the legacy byte stream `[100, 5, 7]` (one
argument-bearing instruction), the decoder yields offset `3` (the position
after the instruction, not `0`, the instruction's own offset) and argument
`5` (the single next byte, ignoring the third byte `7`), while the claimed
behaviour yields `(0, 100, 5 + 256*7)`. -/
theorem legacy_decoder_claim_counterexample :
    py2_go [100, 5, 7] 0 = some [(3, 100, some 5)] ∧
    py2_go_claimed [100, 5, 7] 0 = some [(0, 100, some 1797)] ∧
    py2_go [100, 5, 7] 0 ≠ py2_go_claimed [100, 5, 7] 0 := by
  decide

/-- C2 (amended): in the legacy decoding mode, an argument-bearing
instruction (code at or above the threshold) consumes 3 bytes with only the
single next byte as its argument (the third byte is skipped), an
argument-less instruction consumes 1 byte, and each yielded triple carries
the offset immediately after the instruction, its code, and the
argument-or-none. -/
theorem legacy_decoder_behavior (op b c : Nat) (rest : List Nat) (i : Nat) :
    (HAVE_ARGUMENT ≤ op →
      py2_go (op :: b :: c :: rest) i =
        (py2_go rest (i + 3)).map (fun tl => (i + 3, op, some b) :: tl)) ∧
    (op < HAVE_ARGUMENT →
      py2_go (op :: rest) i =
        (py2_go rest (i + 1)).map (fun tl => (i + 1, op, Option.none) :: tl)) := by
  constructor
  · intro h
    simp [py2_go, h]
  · intro h
    have h' : ¬ HAVE_ARGUMENT ≤ op := Nat.not_le.mpr h
    cases rest with
    | nil => simp [py2_go, h']
    | cons x xs =>
      cases xs with
      | nil => simp [py2_go, h']
      | cons y ys => simp [py2_go, h']

/-- C2 (witness for the amended theorem): concrete instantiation at the
stream `[100, 5, 7]` from offset 0. -/
theorem legacy_decoder_behavior_witness :
    (HAVE_ARGUMENT ≤ 100 →
      py2_go (100 :: 5 :: 7 :: []) 0 =
        (py2_go [] (0 + 3)).map (fun tl => (0 + 3, 100, some 5) :: tl)) ∧
    (100 < HAVE_ARGUMENT →
      py2_go (100 :: []) 0 =
        (py2_go [] (0 + 1)).map (fun tl => (0 + 1, 100, Option.none) :: tl)) :=
  legacy_decoder_behavior 100 5 7 [] 0

/-- C7: in the modern decoding mode, an extended-argument instruction folds
its payload (OR'd with any pending accumulator) left-shifted by 8 bits into
the accumulator, which is OR'd into the next instruction's argument and then
reset to zero; and the oparg sequence the scanner consumes contains no
extended-argument entries. -/
theorem modern_decoder_extended_arg (code : List Nat)
    (l : List (Nat × Nat × Option Nat)) (p q b : Nat) (rest : List Nat) (i ext : Nat) :
    (py3_go code 0 0 = some l → ∀ pr ∈ toOpargs l, pr.1 ≠ EXTENDED_ARG) ∧
    (HAVE_ARGUMENT ≤ q → q ≠ EXTENDED_ARG →
      py3_go (EXTENDED_ARG :: p :: q :: b :: rest) i ext =
        (py3_go rest (i + 4) 0).map
          (fun tl =>
            (i, EXTENDED_ARG, some (p ||| ext)) ::
              (i + 2, q, some (b ||| ((p ||| ext) <<< 8))) :: tl)) := by
  constructor
  · intro _ pr hpr
    simp only [toOpargs, List.mem_map, List.mem_filter] at hpr
    obtain ⟨t, ⟨_, ht⟩, rfl⟩ := hpr
    simpa using ht
  · intro h1 h2
    have hEA : HAVE_ARGUMENT ≤ EXTENDED_ARG := by decide
    simp only [py3_go, if_pos hEA, if_pos rfl, if_pos h1, if_neg h2]
    cases hres : py3_go rest (i + 4) 0 with
    | none => simp [hres]
    | some tl => simp [hres]

/-- C7 (witness): concrete instantiation; the stream
`[144, 1, 100, 2]` decodes to an EXTENDED_ARG entry followed by a
LOAD_CONST with accumulated argument `2 ||| (1 <<< 8) = 258`, and the
scanner-visible sequence contains no EXTENDED_ARG entries. -/
theorem modern_decoder_extended_arg_witness :
    (py3_go [144, 1, 100, 2] 0 0 =
        some [(0, 144, some 1), (2, 100, some 258)] →
      ∀ pr ∈ toOpargs [(0, 144, some 1), (2, 100, some 258)], pr.1 ≠ EXTENDED_ARG) ∧
    (HAVE_ARGUMENT ≤ 100 → 100 ≠ EXTENDED_ARG →
      py3_go (EXTENDED_ARG :: 1 :: 100 :: 2 :: []) 0 0 =
        (py3_go [] (0 + 4) 0).map
          (fun tl =>
            (0, EXTENDED_ARG, some (1 ||| 0)) ::
              (0 + 2, 100, some (2 ||| ((1 ||| 0) <<< 8))) :: tl)) :=
  modern_decoder_extended_arg [144, 1, 100, 2]
    [(0, 144, some 1), (2, 100, some 258)] 1 100 2 [] 0 0

/- Shared scanner lemmas -/

/-- The `or []` normalization never returns the `None` sentinel, and returns
the empty tuple exactly on falsy input. -/
theorem normFromlist_ok (c : Const) :
    normFromlist c ≠ Const.pynone ∧
      (pyTruthy (normFromlist c) = false → normFromlist c = Const.strTuple []) := by
  unfold normFromlist
  by_cases h : pyTruthy c = true
  · simp only [if_pos h]
    refine ⟨?_, ?_⟩
    · intro hc
      subst hc
      simp [pyTruthy] at h
    · intro hf
      rw [hf] at h
      cases h
  · rw [if_neg h]
    exact ⟨by simp, fun _ => rfl⟩

/-- Shape of the events emitted by the import branch of the scanner: one
absolute or relative import whose fromlist is a normalized constant. -/
theorem importEvent_fromlist (names : List PyName) (consts : List Const)
    (oparg arg1 arg2 : Option Nat) (evs : List ScanEvent)
    (h : importEvent names consts oparg arg1 arg2 = some evs) :
    ∀ e ∈ evs,
      (∃ c nm, e = ScanEvent.absImport (normFromlist c) nm) ∨
        (∃ lv c nm, e = ScanEvent.relImport lv (normFromlist c) nm) := by
  unfold importEvent at h
  rcases arg2 with _ | a2
  · cases h
  dsimp only at h
  rcases h2 : consts.get? a2 with _ | level <;> rw [h2] at h
  · cases h
  dsimp only at h
  rcases arg1 with _ | a1
  · cases h
  dsimp only at h
  rcases h1 : consts.get? a1 with _ | flc <;> rw [h1] at h
  · cases h
  dsimp only at h
  rcases oparg with _ | a
  · cases h
  dsimp only at h
  rcases hn : names.get? a with _ | nm <;> rw [hn] at h
  · cases h
  dsimp only at h
  split at h
  · obtain rfl := Option.some.inj h
    intro e he
    obtain rfl := List.mem_singleton.mp he
    exact Or.inl ⟨flc, nm, rfl⟩
  · obtain rfl := Option.some.inj h
    intro e he
    obtain rfl := List.mem_singleton.mp he
    exact Or.inr ⟨level, flc, nm, rfl⟩

/-- Shape of the events emitted by one scanner iteration. -/
theorem scanAt_events (names : List PyName) (consts : List Const)
    (opargs : List (Nat × Option Nat)) (i : Nat) (evs : List ScanEvent)
    (h : scanAt names consts opargs i = some evs) :
    ∀ e ∈ evs,
      (∃ nm, e = ScanEvent.store nm) ∨
        (∃ c nm, e = ScanEvent.absImport (normFromlist c) nm) ∨
        (∃ lv c nm, e = ScanEvent.relImport lv (normFromlist c) nm) := by
  unfold scanAt at h
  rcases hg : opargs.get? i with _ | p <;> rw [hg] at h
  · obtain rfl := Option.some.inj h
    intro e he
    cases he
  rcases p with ⟨op, oparg⟩
  dsimp only at h
  split at h
  · rcases oparg with _ | a
    · cases h
    dsimp only at h
    rcases hn : names.get? a with _ | nm <;> rw [hn] at h
    · cases h
    obtain rfl := Option.some.inj h
    intro e he
    obtain rfl := List.mem_singleton.mp he
    exact Or.inl ⟨nm, rfl⟩
  · split at h
    · split at h
      · split at h
        · split at h
          · intro e he
            exact Or.inr (importEvent_fromlist names consts oparg _ _ evs h e he)
          · obtain rfl := Option.some.inj h
            intro e he
            cases he
        all_goals
          obtain rfl := Option.some.inj h
          intro e he
          cases he
      · obtain rfl := Option.some.inj h
        intro e he
        cases he
    · obtain rfl := Option.some.inj h
      intro e he
      cases he

/-- Shape of the events accumulated by the scanner loop. -/
theorem scanGo_events (names : List PyName) (consts : List Const)
    (opargs : List (Nat × Option Nat)) :
    ∀ (suffix : List (Nat × Option Nat)) (i : Nat) (evs : List ScanEvent),
      scanGo names consts opargs suffix i = some evs →
      ∀ e ∈ evs,
        (∃ nm, e = ScanEvent.store nm) ∨
          (∃ c nm, e = ScanEvent.absImport (normFromlist c) nm) ∨
          (∃ lv c nm, e = ScanEvent.relImport lv (normFromlist c) nm) := by
  intro suffix
  induction suffix with
  | nil =>
    intro i evs h
    obtain rfl := Option.some.inj h
    intro e he
    cases he
  | cons hd rest ih =>
    intro i evs h
    unfold scanGo at h
    rcases hA : scanAt names consts opargs i with _ | evsA <;> rw [hA] at h
    · cases h
    dsimp only at h
    rcases ht : scanGo names consts opargs rest (i + 1) with _ | tl <;> rw [ht] at h
    · cases h
    obtain rfl := Option.some.inj h
    intro e he
    rcases List.mem_append.mp he with he1 | he2
    · exact scanAt_events names consts opargs i evsA hA e he1
    · exact ih (i + 1) tl ht e he2

/-- C10: every AbsoluteImport or RelativeImport event emitted by the scanner
carries a fromlist that went through the `or []` normalization: the
`None`/falsy fromlist constant of a plain `import x` statement is replaced
by the empty sequence before the event is emitted, so no event ever exposes
the sentinel (or any other falsy fromlist) to the resolver. -/
theorem scanner_fromlist_normalized (names : List PyName) (consts : List Const)
    (opargs : List (Nat × Option Nat)) (evs : List ScanEvent)
    (h : scanFromOpargs names consts opargs = some evs) :
    (∀ fl T, ScanEvent.absImport fl T ∈ evs →
      fl ≠ Const.pynone ∧ (pyTruthy fl = false → fl = Const.strTuple [])) ∧
    (∀ lv fl T, ScanEvent.relImport lv fl T ∈ evs →
      fl ≠ Const.pynone ∧ (pyTruthy fl = false → fl = Const.strTuple [])) := by
  have hall := scanGo_events names consts opargs opargs 0 evs h
  constructor
  · intro fl T hmem
    rcases hall _ hmem with ⟨nm, he⟩ | ⟨c, nm, he⟩ | ⟨lv, c, nm, he⟩
    · cases he
    · obtain ⟨h1, _⟩ := ScanEvent.absImport.inj he
      subst h1
      exact normFromlist_ok c
    · cases he
  · intro lv fl T hmem
    rcases hall _ hmem with ⟨nm, he⟩ | ⟨c, nm, he⟩ | ⟨lv', c, nm, he⟩
    · cases he
    · cases he
    · obtain ⟨_, h1, _⟩ := ScanEvent.relImport.inj he
      subst h1
      exact normFromlist_ok c

/-- C10 (witness): a scanned stream whose fromlist constant is `None`
(a plain `import m`) emits its event with the empty tuple instead. -/
theorem scanner_fromlist_normalized_witness :
    (∀ fl T,
        ScanEvent.absImport fl T ∈ [ScanEvent.absImport (Const.strTuple []) "m".data] →
        fl ≠ Const.pynone ∧ (pyTruthy fl = false → fl = Const.strTuple [])) ∧
    (∀ lv fl T,
        ScanEvent.relImport lv fl T ∈ [ScanEvent.absImport (Const.strTuple []) "m".data] →
        fl ≠ Const.pynone ∧ (pyTruthy fl = false → fl = Const.strTuple [])) :=
  scanner_fromlist_normalized ["m".data] [Const.int 0, Const.pynone]
    [(100, some 0), (100, some 1), (108, some 0)]
    [ScanEvent.absImport (Const.strTuple []) "m".data] (by decide)

/-- C6: an import instruction whose two immediately preceding oparg entries
are constant-loads yields exactly one event: AbsoluteImport of the
(normalized) fromlist and name-table target when the level constant two
positions back is `0` or the `-1` "not specified" sentinel, and
RelativeImport of that level when the level is any positive integer; and an
unpreceded import instruction yields no event at all. -/
theorem scanner_import_form
    (names : List PyName) (consts : List Const) (opargs : List (Nat × Option Nat))
    (i : Nat) (a a1 a2 : Nat) (lvl flc : Const) (nm : PyName) (k : Int)
    (j : Nat) (argj : Option Nat)
    (hi : opargs.get? i = some (IMPORT_NAME, some a))
    (h2 : 2 ≤ i)
    (h3 : opargs.get? (i - 1) = some (LOAD_CONST, some a1))
    (h4 : opargs.get? (i - 2) = some (LOAD_CONST, some a2))
    (h5 : consts.get? a2 = some lvl)
    (h6 : consts.get? a1 = some flc)
    (h7 : names.get? a = some nm)
    (hj : opargs.get? j = some (IMPORT_NAME, argj))
    (hnp : importPreceded opargs j = false) :
    (pyEqInt lvl 0 = true ∨ pyEqInt lvl (-1) = true →
      scanAt names consts opargs i =
        some [ScanEvent.absImport (normFromlist flc) nm]) ∧
    (0 < k → lvl = Const.int k →
      scanAt names consts opargs i =
        some [ScanEvent.relImport lvl (normFromlist flc) nm]) ∧
    scanAt names consts opargs j = some [] := by
  have hstore : ¬ (IMPORT_NAME = STORE_NAME ∨ IMPORT_NAME = STORE_GLOBAL) := by decide
  simp only [List.get?_eq_getElem?] at hi h3 h4 h5 h6 h7 hj
  refine ⟨?_, ?_, ?_⟩
  · intro hlvl
    rcases hlvl with hl | hl <;>
      simp [scanAt, hi, h3, h4, importEvent, h5, h6, h7, hstore, h2, hl]
  · intro hk hlv
    subst hlv
    have e0 : pyEqInt (Const.int k) 0 = false := by
      simp only [pyEqInt, decide_eq_false_iff_not]
      omega
    have e1 : pyEqInt (Const.int k) (-1) = false := by
      simp only [pyEqInt, decide_eq_false_iff_not]
      omega
    simp [scanAt, hi, h3, h4, importEvent, h5, h6, h7, hstore, h2, e0, e1]
  · unfold importPreceded at hnp
    simp only [List.get?_eq_getElem?] at hnp
    by_cases hj2 : 2 ≤ j
    · rw [if_pos hj2] at hnp
      rcases hp : opargs[j - 1]? with _ | p <;> rw [hp] at hnp
      · simp [scanAt, hj, hp, hstore, hj2]
      rcases hq : opargs[j - 2]? with _ | q <;> rw [hq] at hnp
      · simp [scanAt, hj, hp, hq, hstore, hj2]
      rcases p with ⟨op1, b1⟩
      rcases q with ⟨op2, b2⟩
      dsimp only at hnp
      have hcond : ¬ (op1 = LOAD_CONST ∧ op2 = LOAD_CONST) := of_decide_eq_false hnp
      simp [scanAt, hj, hp, hq, hstore, hj2, hcond]
    · rw [if_neg hj2] at hnp
      simp [scanAt, hj, hstore, hj2]

/-- C6 (witness): a concrete oparg stream with a properly preceded import at
index 2 (level constant `0`, fromlist constant the empty tuple) and an
unpreceded import at index 3. -/
theorem scanner_import_form_witness :
    (pyEqInt (Const.int 0) 0 = true ∨ pyEqInt (Const.int 0) (-1) = true →
      scanAt ["m".data] [Const.int 0, Const.strTuple []]
          [(100, some 0), (100, some 1), (108, some 0), (108, some 0)] 2 =
        some [ScanEvent.absImport (normFromlist (Const.strTuple [])) "m".data]) ∧
    (0 < (1 : Int) → Const.int 0 = Const.int 1 →
      scanAt ["m".data] [Const.int 0, Const.strTuple []]
          [(100, some 0), (100, some 1), (108, some 0), (108, some 0)] 2 =
        some [ScanEvent.relImport (Const.int 0) (normFromlist (Const.strTuple [])) "m".data]) ∧
    scanAt ["m".data] [Const.int 0, Const.strTuple []]
        [(100, some 0), (100, some 1), (108, some 0), (108, some 0)] 3 = some [] :=
  scanner_import_form ["m".data] [Const.int 0, Const.strTuple []]
    [(100, some 0), (100, some 1), (108, some 0), (108, some 0)]
    2 0 1 0 (Const.int 0) (Const.strTuple []) "m".data 1 3 (some 0)
    (by decide) (by decide) (by decide) (by decide) (by decide) (by decide)
    (by decide) (by decide) (by decide)

/- Shared resolver dictionary lemmas -/

/-- Key presence after an append: the old keys plus the appended key. -/
theorem dHasKey_dAppend (d : DirectImports) (k k' : PyName) (v : Option PyName) :
    dHasKey (dAppend d k' v) k = (dHasKey d k || decide (k = k')) := by
  induction d with
  | nil =>
    by_cases h : k' = k
    · subst h
      simp [dAppend, dHasKey]
    · have h2 : ¬ (k = k') := fun he => h he.symm
      simp [dAppend, dHasKey, h, h2]
  | cons hd rest ih =>
    rcases hd with ⟨a, vs⟩
    by_cases h1 : a = k'
    · subst h1
      by_cases h2 : a = k
      · subst h2
        simp [dAppend, dHasKey]
      · have h3 : ¬ (k = a) := fun he => h2 he.symm
        simp [dAppend, dHasKey, h2, h3]
    · by_cases h2 : a = k
      · subst h2
        simp [dAppend, dHasKey, h1]
      · simp [dAppend, dHasKey, h1, h2, ih]

/-- Value lists after an append: the appended key gains the value, every
other key is untouched. -/
theorem dFind_dAppend (d : DirectImports) (k k' : PyName) (v : Option PyName) :
    dFind (dAppend d k' v) k = if k = k' then dFind d k ++ [v] else dFind d k := by
  induction d with
  | nil =>
    by_cases h : k = k'
    · subst h
      simp [dAppend, dFind]
    · have h2 : ¬ (k' = k) := fun he => h he.symm
      simp [dAppend, dFind, h, h2]
  | cons hd rest ih =>
    rcases hd with ⟨a, vs⟩
    by_cases h1 : a = k'
    · subst h1
      by_cases h2 : a = k
      · subst h2
        simp [dAppend, dFind]
      · have h3 : ¬ (k = a) := fun he => h2 he.symm
        simp [dAppend, dFind, h2, h3]
    · by_cases h2 : a = k
      · subst h2
        simp [dAppend, dFind, h1]
      · simp [dAppend, dFind, h1, h2, ih]

/-- The appended-to key is present afterwards. -/
theorem dHasKey_dAppend_self (d : DirectImports) (k : PyName) (v : Option PyName) :
    dHasKey (dAppend d k v) k = true := by
  rw [dHasKey_dAppend]
  simp

/-- Appending preserves key presence. -/
theorem dHasKey_dAppend_mono (d : DirectImports) (k k' : PyName) (v : Option PyName)
    (h : dHasKey d k = true) : dHasKey (dAppend d k' v) k = true := by
  rw [dHasKey_dAppend, h]
  simp

/-- A key present after an append was present before or is the appended key. -/
theorem dHasKey_dAppend_elim (d : DirectImports) (k k' : PyName) (v : Option PyName)
    (h : dHasKey (dAppend d k' v) k = true) : k = k' ∨ dHasKey d k = true := by
  rw [dHasKey_dAppend] at h
  rcases Bool.or_eq_true_iff.mp h with h1 | h1
  · exact Or.inr h1
  · exact Or.inl (of_decide_eq_true h1)

/-- Membership in a value list survives any append. -/
theorem mem_dFind_dAppend (d : DirectImports) (k k' : PyName) (v x : Option PyName)
    (h : x ∈ dFind d k) : x ∈ dFind (dAppend d k' v) k := by
  rw [dFind_dAppend]
  by_cases he : k = k'
  · rw [if_pos he]
    exact List.mem_append_left _ h
  · rw [if_neg he]
    exact h

/-- A fully-qualified candidate name is strictly longer than its package. -/
theorem fq_name_ne (T n : PyName) : T ≠ T ++ '.' :: n := by
  intro he
  have hlen := congrArg List.length he
  simp at hlen

/-- The per-name resolver step preserves key presence and recorded values. -/
theorem processName_pres (mods : List PyName) (top : PyName) (d : DirectImports)
    (n : PyName) (k : PyName) :
    (dHasKey d k = true → dHasKey (processName mods top d n) k = true) ∧
    (∀ v, v ∈ dFind d k → v ∈ dFind (processName mods top d n) k) := by
  unfold processName
  by_cases hm : memB (top ++ '.' :: n) mods = true
  · rw [if_pos hm]
    exact ⟨dHasKey_dAppend_mono d k _ _, fun v hv => mem_dFind_dAppend d k _ _ v hv⟩
  · rw [if_neg hm]
    exact ⟨dHasKey_dAppend_mono d k _ _, fun v hv => mem_dFind_dAppend d k _ _ v hv⟩

/-- Keys introduced by the per-name resolver step. -/
theorem processName_key_elim (mods : List PyName) (top : PyName) (d : DirectImports)
    (n : PyName) (k : PyName)
    (h : dHasKey (processName mods top d n) k = true) :
    dHasKey d k = true ∨ k = top ∨
      (k = top ++ '.' :: n ∧ memB (top ++ '.' :: n) mods = true) := by
  unfold processName at h
  by_cases hm : memB (top ++ '.' :: n) mods = true
  · rw [if_pos hm] at h
    rcases dHasKey_dAppend_elim _ _ _ _ h with h1 | h1
    · exact Or.inr (Or.inr ⟨h1, hm⟩)
    · exact Or.inl h1
  · rw [if_neg hm] at h
    rcases dHasKey_dAppend_elim _ _ _ _ h with h1 | h1
    · exact Or.inr (Or.inl h1)
    · exact Or.inl h1

/-- The fromlist fold preserves key presence and recorded values. -/
theorem foldl_processName_pres (mods : List PyName) (top : PyName) (ns : List PyName) :
    ∀ (d : DirectImports) (k : PyName),
      (dHasKey d k = true → dHasKey (ns.foldl (processName mods top) d) k = true) ∧
      (∀ v, v ∈ dFind d k → v ∈ dFind (ns.foldl (processName mods top) d) k) := by
  induction ns with
  | nil => exact fun d k => ⟨fun h => h, fun v hv => hv⟩
  | cons n ns ih =>
    intro d k
    constructor
    · intro h
      exact (ih (processName mods top d n) k).1 ((processName_pres mods top d n k).1 h)
    · intro v hv
      exact (ih (processName mods top d n) k).2 v ((processName_pres mods top d n k).2 v hv)

/-- Keys introduced by the fromlist fold. -/
theorem foldl_processName_key_elim (mods : List PyName) (top : PyName) (ns : List PyName) :
    ∀ (d : DirectImports) (k : PyName),
      dHasKey (ns.foldl (processName mods top) d) k = true →
      dHasKey d k = true ∨ k = top ∨
        (∃ n ∈ ns, k = top ++ '.' :: n ∧ memB (top ++ '.' :: n) mods = true) := by
  induction ns with
  | nil => exact fun d k h => Or.inl h
  | cons n ns ih =>
    intro d k h
    rcases ih (processName mods top d n) k h with h1 | h1 | ⟨m, hm, h1⟩
    · rcases processName_key_elim mods top d n k h1 with h2 | h2 | ⟨h2, h3⟩
      · exact Or.inl h2
      · exact Or.inr (Or.inl h2)
      · exact Or.inr (Or.inr ⟨n, List.mem_cons_self n ns, h2, h3⟩)
    · exact Or.inr (Or.inl h1)
    · exact Or.inr (Or.inr ⟨m, List.mem_cons_of_mem n hm, h1⟩)

/-- A fromlist name whose fully-qualified candidate is a project module gets
that candidate recorded with the empty-import marker by the fold. -/
theorem foldl_processName_adds (mods : List PyName) (top : PyName) (ns : List PyName) :
    ∀ (d : DirectImports) (n : PyName), n ∈ ns →
      memB (top ++ '.' :: n) mods = true →
      dHasKey (ns.foldl (processName mods top) d) (top ++ '.' :: n) = true ∧
        Option.none ∈ dFind (ns.foldl (processName mods top) d) (top ++ '.' :: n) := by
  induction ns with
  | nil =>
    intro d n hn
    cases hn
  | cons m ms ih =>
    intro d n hn hmem
    rcases List.mem_cons.mp hn with rfl | hn2
    · have hstep : processName mods top d n = dAppend d (top ++ '.' :: n) Option.none := by
        unfold processName
        rw [if_pos hmem]
      constructor
      · apply (foldl_processName_pres mods top ms _ _).1
        rw [hstep]
        exact dHasKey_dAppend_self d _ _
      · apply (foldl_processName_pres mods top ms _ _).2
        rw [hstep, dFind_dAppend, if_pos rfl]
        exact List.mem_append_right _ (List.mem_singleton.mpr rfl)
    · exact ih (processName mods top d m) n hn2 hmem

/-- Resolver step on an absolute import whose guard passes and whose
fromlist is iterable: fold the fromlist names over the (possibly
sentinel-extended) dict. -/
theorem processEvent_abs_eq (is_std : PyName → Bool) (mods : List PyName)
    (d : DirectImports) (fl : Const) (T : PyName) (ns : List PyName)
    (hg : (!is_std (topSegment T) || memB T mods) = true)
    (hit : iterConst fl = some ns) :
    processEvent is_std mods d (ScanEvent.absImport fl T) =
      some (ns.foldl (processName mods T)
        (if pyTruthy fl = true then d else dAppend d T Option.none)) := by
  cases htr : pyTruthy fl with
  | false => simp [processEvent, hg, hit, htr]
  | true => simp [processEvent, hg, hit, htr]

/-- Resolver step on an absolute import whose guard passes but whose
fromlist is not iterable: the TypeError aborts resolution. -/
theorem processEvent_abs_fail (is_std : PyName → Bool) (mods : List PyName)
    (d : DirectImports) (fl : Const) (T : PyName)
    (hg : (!is_std (topSegment T) || memB T mods) = true)
    (hit : iterConst fl = Option.none) :
    processEvent is_std mods d (ScanEvent.absImport fl T) = Option.none := by
  simp [processEvent, hg, hit]

/-- Resolver step on an absolute import whose guard fails: a no-op. -/
theorem processEvent_abs_skip (is_std : PyName → Bool) (mods : List PyName)
    (d : DirectImports) (fl : Const) (T : PyName)
    (hg : ¬ (!is_std (topSegment T) || memB T mods) = true) :
    processEvent is_std mods d (ScanEvent.absImport fl T) = some d := by
  simp only [processEvent, if_neg hg]

/-- An absolute-import event whose target is standard-library and not a
project module is a no-op for the resolver. -/
theorem processEvent_discarded (is_std : PyName → Bool) (mods : List PyName)
    (d : DirectImports) (fl : Const) (T : PyName)
    (h1 : is_std (topSegment T) = true) (h2 : memB T mods = false) :
    processEvent is_std mods d (ScanEvent.absImport fl T) = some d := by
  apply processEvent_abs_skip
  rw [h1, h2]
  simp

/-- Each resolver event step preserves key presence and recorded values. -/
theorem processEvent_pres (is_std : PyName → Bool) (mods : List PyName)
    (d : DirectImports) (e : ScanEvent) (d' : DirectImports)
    (h : processEvent is_std mods d e = some d') (k : PyName) :
    (dHasKey d k = true → dHasKey d' k = true) ∧
    (∀ v, v ∈ dFind d k → v ∈ dFind d' k) := by
  cases e with
  | store nm =>
    obtain rfl := Option.some.inj h
    exact ⟨fun hh => hh, fun v hv => hv⟩
  | relImport lv fl T =>
    obtain rfl := Option.some.inj h
    exact ⟨fun hh => hh, fun v hv => hv⟩
  | absImport fl T =>
    by_cases hg : (!is_std (topSegment T) || memB T mods) = true
    · rcases hit : iterConst fl with _ | ns
      · rw [processEvent_abs_fail is_std mods d fl T hg hit] at h
        cases h
      · rw [processEvent_abs_eq is_std mods d fl T ns hg hit] at h
        obtain rfl := Option.some.inj h
        constructor
        · intro hh
          refine (foldl_processName_pres mods T ns _ k).1 ?_
          by_cases htr : pyTruthy fl = true
          · rw [if_pos htr]
            exact hh
          · rw [if_neg htr]
            exact dHasKey_dAppend_mono d k T Option.none hh
        · intro v hv
          refine (foldl_processName_pres mods T ns _ k).2 v ?_
          by_cases htr : pyTruthy fl = true
          · rw [if_pos htr]
            exact hv
          · rw [if_neg htr]
            exact mem_dFind_dAppend d k T Option.none v hv
    · rw [processEvent_abs_skip is_std mods d fl T hg] at h
      obtain rfl := Option.some.inj h
      exact ⟨fun hh => hh, fun v hv => hv⟩

/-- No resolver event step can introduce a key whose top segment is
standard-library and which is not a project module. -/
theorem processEvent_key_elim (is_std : PyName → Bool) (mods : List PyName) (T : PyName)
    (hT1 : is_std (topSegment T) = true) (hT2 : memB T mods = false)
    (d d' : DirectImports) (e : ScanEvent)
    (h : processEvent is_std mods d e = some d')
    (hk : dHasKey d' T = true) : dHasKey d T = true := by
  cases e with
  | store nm =>
    obtain rfl := Option.some.inj h
    exact hk
  | relImport lv fl tp =>
    obtain rfl := Option.some.inj h
    exact hk
  | absImport fl tp =>
    by_cases hg : (!is_std (topSegment tp) || memB tp mods) = true
    · have htp : tp ≠ T := by
        intro he
        subst he
        rw [hT1, hT2] at hg
        simp at hg
      rcases hit : iterConst fl with _ | ns
      · rw [processEvent_abs_fail is_std mods d fl tp hg hit] at h
        cases h
      · rw [processEvent_abs_eq is_std mods d fl tp ns hg hit] at h
        obtain rfl := Option.some.inj h
        rcases foldl_processName_key_elim mods tp ns _ T hk with hcase | hcase | ⟨n, hn, hc1, hc2⟩
        · by_cases htr : pyTruthy fl = true
          · rw [if_pos htr] at hcase
            exact hcase
          · rw [if_neg htr] at hcase
            rcases dHasKey_dAppend_elim _ _ _ _ hcase with h3 | h3
            · exact absurd h3.symm htp
            · exact h3
        · exact absurd hcase.symm htp
        · rw [hc1] at hT2
          rw [hT2] at hc2
          exact absurd hc2 Bool.false_ne_true
    · rw [processEvent_abs_skip is_std mods d fl tp hg] at h
      obtain rfl := Option.some.inj h
      exact hk

/-- Splitting the resolver loop over a concatenation of event lists. -/
theorem runEvents_append (is_std : PyName → Bool) (mods : List PyName)
    (l1 l2 : List ScanEvent) :
    ∀ d, runEvents is_std mods d (l1 ++ l2) =
      match runEvents is_std mods d l1 with
      | Option.none => Option.none
      | some d1 => runEvents is_std mods d1 l2 := by
  induction l1 with
  | nil => intro d; rfl
  | cons e es ih =>
    intro d
    rw [List.cons_append]
    rcases hp : processEvent is_std mods d e with _ | d1
    · simp [runEvents, hp]
    · simp [runEvents, hp, ih d1]

/-- The resolver loop preserves key presence and recorded values. -/
theorem runEvents_pres (is_std : PyName → Bool) (mods : List PyName) :
    ∀ (evs : List ScanEvent) (d d' : DirectImports) (k : PyName),
      runEvents is_std mods d evs = some d' →
      (dHasKey d k = true → dHasKey d' k = true) ∧
      (∀ v, v ∈ dFind d k → v ∈ dFind d' k) := by
  intro evs
  induction evs with
  | nil =>
    intro d d' k h
    obtain rfl := Option.some.inj h
    exact ⟨fun hh => hh, fun v hv => hv⟩
  | cons e es ih =>
    intro d d' k h
    unfold runEvents at h
    rcases hp : processEvent is_std mods d e with _ | d1 <;> rw [hp] at h
    · cases h
    · constructor
      · intro hh
        exact (ih d1 d' k h).1 ((processEvent_pres is_std mods d e d1 hp k).1 hh)
      · intro v hv
        exact (ih d1 d' k h).2 v ((processEvent_pres is_std mods d e d1 hp k).2 v hv)

/-- The resolver loop never introduces a key whose top segment is
standard-library and which is not a project module. -/
theorem runEvents_key_elim (is_std : PyName → Bool) (mods : List PyName) (T : PyName)
    (hT1 : is_std (topSegment T) = true) (hT2 : memB T mods = false) :
    ∀ (evs : List ScanEvent) (d d' : DirectImports),
      runEvents is_std mods d evs = some d' →
      dHasKey d' T = true → dHasKey d T = true := by
  intro evs
  induction evs with
  | nil =>
    intro d d' h hk
    obtain rfl := Option.some.inj h
    exact hk
  | cons e es ih =>
    intro d d' h hk
    unfold runEvents at h
    rcases hp : processEvent is_std mods d e with _ | d1 <;> rw [hp] at h
    · cases h
    · exact processEvent_key_elim is_std mods T hT1 hT2 d d1 e hp (ih d1 d' h hk)

/-- Definitional unfolding of the resolver loop on a cons. -/
theorem runEvents_cons (is_std : PyName → Bool) (mods : List PyName)
    (d : DirectImports) (e : ScanEvent) (es : List ScanEvent) :
    runEvents is_std mods d (e :: es) =
      match processEvent is_std mods d e with
      | Option.none => Option.none
      | some d1 => runEvents is_std mods d1 es := rfl

/-- C3 (counterexample): an AbsoluteImport with empty fromlist whose target
`sys` is standard-library and not a project module is discarded entirely,
so the resolved DirectImports does NOT contain the key `sys` — refuting
"regardless of whether T is a key of the project module set". -/
theorem resolver_empty_fromlist_claim_counterexample :
    get_fq_immediate_deps (fun s => decide (s = "sys".data)) []
        [ScanEvent.absImport (Const.strTuple []) "sys".data] = some [] ∧
    dHasKey [] "sys".data = false := by
  decide

/-- C3 (amended): for every AbsoluteImport event with an empty fromlist and
target T scanned from a module, IF T passes the standard-library guard
(T's top segment is not standard-library, or T is a key of the project
module set), THEN the resolved DirectImports contains the key T carrying
the empty-import marker (the representation of a module-itself import),
regardless of whether T is a key of the project module set. -/
theorem resolver_empty_fromlist_records_target
    (is_std : PyName → Bool) (all_mods : List PyName) (T : PyName)
    (evs1 evs2 : List ScanEvent) (d : DirectImports)
    (hguard : is_std (topSegment T) = false ∨ memB T all_mods = true)
    (h : get_fq_immediate_deps is_std all_mods
        (evs1 ++ ScanEvent.absImport (Const.strTuple []) T :: evs2) = some d) :
    dHasKey d T = true ∧ Option.none ∈ dFind d T := by
  have hg : (!is_std (topSegment T) || memB T all_mods) = true := by
    rcases hguard with h1 | h1 <;> simp [h1]
  have hstep : ∀ d1, processEvent is_std all_mods d1
      (ScanEvent.absImport (Const.strTuple []) T) = some (dAppend d1 T Option.none) := by
    intro d1
    rw [processEvent_abs_eq is_std all_mods d1 (Const.strTuple []) T [] hg rfl]
    simp [pyTruthy]
  unfold get_fq_immediate_deps at h
  rw [runEvents_append] at h
  rcases h1 : runEvents is_std all_mods [] evs1 with _ | d1 <;> rw [h1] at h
  · cases h
  dsimp only at h
  rw [runEvents_cons, hstep d1] at h
  dsimp only at h
  have hpres := runEvents_pres is_std all_mods evs2 (dAppend d1 T Option.none) d T h
  constructor
  · exact hpres.1 (dHasKey_dAppend_self d1 T Option.none)
  · apply hpres.2
    rw [dFind_dAppend, if_pos rfl]
    exact List.mem_append_right _ (List.mem_singleton.mpr rfl)

/-- C3 (witness for the amended theorem): a single empty-fromlist import of
a non-standard-library target `x` yields the dict mapping `x` to the
empty-import marker. -/
theorem resolver_empty_fromlist_records_target_witness :
    dHasKey [("x".data, [Option.none])] "x".data = true ∧
      Option.none ∈ dFind [("x".data, [Option.none])] "x".data :=
  resolver_empty_fromlist_records_target (fun _ => false) [] "x".data [] []
    [("x".data, [Option.none])] (Or.inl rfl) (by decide)

/-- C4: an AbsoluteImport event whose target's top segment is
standard-library and whose target is not a key of the project module set
contributes nothing (the run with the event resolves to the same dict as
the run without it), and the target never appears as a key of the final
DirectImports. -/
theorem resolver_discards_stdlib_targets
    (is_std : PyName → Bool) (T : PyName) (all_mods : List PyName)
    (evs1 evs2 : List ScanEvent) (fl : Const) (d : DirectImports)
    (h1 : is_std (topSegment T) = true) (h2 : memB T all_mods = false) :
    get_fq_immediate_deps is_std all_mods (evs1 ++ ScanEvent.absImport fl T :: evs2) =
      get_fq_immediate_deps is_std all_mods (evs1 ++ evs2) ∧
    (get_fq_immediate_deps is_std all_mods (evs1 ++ ScanEvent.absImport fl T :: evs2) =
        some d →
      dHasKey d T = false) := by
  constructor
  · unfold get_fq_immediate_deps
    rw [runEvents_append, runEvents_append]
    rcases h3 : runEvents is_std all_mods [] evs1 with _ | d1
    · rfl
    · dsimp only
      rw [runEvents_cons, processEvent_discarded is_std all_mods d1 fl T h1 h2]
  · intro h
    cases hk : dHasKey d T with
    | false => rfl
    | true =>
      have h0 : dHasKey ([] : DirectImports) T = true :=
        runEvents_key_elim is_std all_mods T h1 h2 _ [] d h hk
      simp [dHasKey] at h0

/-- C4 (witness): a `sys` import (with `sys` standard-library and outside
the one-module project) is dropped and `sys` is not a key of the result. -/
theorem resolver_discards_stdlib_targets_witness :
    get_fq_immediate_deps (fun s => decide (s = "sys".data)) ["main".data]
        ([] ++ ScanEvent.absImport Const.pynone "sys".data :: [ScanEvent.store "x".data]) =
      get_fq_immediate_deps (fun s => decide (s = "sys".data)) ["main".data]
        ([] ++ [ScanEvent.store "x".data]) ∧
    (get_fq_immediate_deps (fun s => decide (s = "sys".data)) ["main".data]
        ([] ++ ScanEvent.absImport Const.pynone "sys".data :: [ScanEvent.store "x".data]) =
        some [] →
      dHasKey [] "sys".data = false) :=
  resolver_discards_stdlib_targets (fun s => decide (s = "sys".data)) "sys".data
    ["main".data] [] [ScanEvent.store "x".data] Const.pynone []
    (by decide) (by decide)

/-- C5: for a fromlist name n of a non-discarded AbsoluteImport with target
T: if T.n is a project module key, the resolver records key T.n with the
empty-import marker and does not add member n under key T; otherwise it
appends n to the member list under key T. -/
theorem resolver_from_import_submodule
    (is_std : PyName → Bool) (all_mods : List PyName) (T n : PyName)
    (d0 : DirectImports) (evs1 evs2 : List ScanEvent) (ns : List PyName)
    (d : DirectImports) :
    (memB (T ++ '.' :: n) all_mods = true →
      processName all_mods T d0 n = dAppend d0 (T ++ '.' :: n) Option.none ∧
      dHasKey (processName all_mods T d0 n) (T ++ '.' :: n) = true ∧
      Option.none ∈ dFind (processName all_mods T d0 n) (T ++ '.' :: n) ∧
      dFind (processName all_mods T d0 n) T = dFind d0 T) ∧
    (memB (T ++ '.' :: n) all_mods = false →
      processName all_mods T d0 n = dAppend d0 T (some n) ∧
      dFind (processName all_mods T d0 n) T = dFind d0 T ++ [some n]) ∧
    ((is_std (topSegment T) = false ∨ memB T all_mods = true) →
      n ∈ ns → memB (T ++ '.' :: n) all_mods = true →
      get_fq_immediate_deps is_std all_mods
          (evs1 ++ ScanEvent.absImport (Const.strTuple ns) T :: evs2) = some d →
      dHasKey d (T ++ '.' :: n) = true ∧ Option.none ∈ dFind d (T ++ '.' :: n)) := by
  refine ⟨?_, ?_, ?_⟩
  · intro hm
    have hstep : processName all_mods T d0 n = dAppend d0 (T ++ '.' :: n) Option.none := by
      unfold processName
      rw [if_pos hm]
    refine ⟨hstep, ?_, ?_, ?_⟩
    · rw [hstep]
      exact dHasKey_dAppend_self d0 _ _
    · rw [hstep, dFind_dAppend, if_pos rfl]
      exact List.mem_append_right _ (List.mem_singleton.mpr rfl)
    · rw [hstep, dFind_dAppend, if_neg (fq_name_ne T n)]
  · intro hm
    have hstep : processName all_mods T d0 n = dAppend d0 T (some n) := by
      unfold processName
      rw [if_neg (by simp [hm])]
    refine ⟨hstep, ?_⟩
    rw [hstep, dFind_dAppend, if_pos rfl]
  · intro hguard hn hmem h
    have hg : (!is_std (topSegment T) || memB T all_mods) = true := by
      rcases hguard with hx | hx <;> simp [hx]
    unfold get_fq_immediate_deps at h
    rw [runEvents_append] at h
    rcases h1 : runEvents is_std all_mods [] evs1 with _ | d1 <;> rw [h1] at h
    · cases h
    dsimp only at h
    rw [runEvents_cons,
      processEvent_abs_eq is_std all_mods d1 (Const.strTuple ns) T ns hg rfl] at h
    dsimp only at h
    have hadds := foldl_processName_adds all_mods T ns
      (if pyTruthy (Const.strTuple ns) = true then d1 else dAppend d1 T Option.none)
      n hn hmem
    have hpres := runEvents_pres is_std all_mods evs2 _ d (T ++ '.' :: n) h
    exact ⟨hpres.1 hadds.1, hpres.2 Option.none hadds.2⟩

/-- C5 (witness): `from a import b` in a project containing module `a.b`
records the key `a.b` with the empty-import marker and leaves `a`'s member
list untouched. -/
theorem resolver_from_import_submodule_witness :
    (processName ["a.b".data] "a".data [] "b".data =
        dAppend [] ("a".data ++ '.' :: "b".data) Option.none ∧
      dHasKey (processName ["a.b".data] "a".data [] "b".data)
          ("a".data ++ '.' :: "b".data) = true ∧
      Option.none ∈ dFind (processName ["a.b".data] "a".data [] "b".data)
          ("a".data ++ '.' :: "b".data) ∧
      dFind (processName ["a.b".data] "a".data [] "b".data) "a".data =
        dFind [] "a".data) ∧
    (dHasKey [("a.b".data, [Option.none])] ("a".data ++ '.' :: "b".data) = true ∧
      Option.none ∈ dFind [("a.b".data, [Option.none])] ("a".data ++ '.' :: "b".data)) :=
  ⟨(resolver_from_import_submodule (fun _ => false) ["a.b".data] "a".data "b".data
      [] [] [] ["b".data] [("a.b".data, [Option.none])]).1 (by decide),
   (resolver_from_import_submodule (fun _ => false) ["a.b".data] "a".data "b".data
      [] [] [] ["b".data] [("a.b".data, [Option.none])]).2.2
      (Or.inl rfl) (by decide) (by decide) (by decide)⟩

/-- Inserting into the name-sorted list only adds the inserted module. -/
theorem mem_insertByName (m : PyModule) (l : List PyModule) (x : PyModule) :
    x ∈ insertByName m l ↔ x = m ∨ x ∈ l := by
  induction l with
  | nil => simp [insertByName]
  | cons y ys ih =>
    by_cases h : nameLe m.name y.name = true <;>
      (simp [insertByName, h, ih]; try tauto)

/-- Sorting the module dict items preserves membership. -/
theorem mem_sortByName (m : PyModule) (l : List PyModule) (h : m ∈ l) :
    m ∈ sortByName l := by
  induction l with
  | nil => cases h
  | cons y ys ih =>
    rcases List.mem_cons.mp h with rfl | h2
    · exact (mem_insertByName m (sortByName ys) m).mpr (Or.inl rfl)
    · exact (mem_insertByName y (sortByName ys) m).mpr (Or.inr (ih h2))

/-- If any module in the loop's list is unreadable, the whole loop raises. -/
theorem addDepsGo_fail (is_std : PyName → Bool) (ams : List PyName) :
    ∀ (l : List PyModule) (acc : List (PyName × DirectImports)) (m : PyModule),
      m ∈ l → m.scanned = Option.none →
      addDepsGo is_std ams l acc = Option.none := by
  intro l
  induction l with
  | nil =>
    intro acc m hm
    cases hm
  | cons hd tl ih =>
    intro acc m hm hsc
    rcases List.mem_cons.mp hm with rfl | h2
    · have : get_fq_immediate_deps_mod is_std ams m = Option.none := by
        simp [get_fq_immediate_deps_mod, hsc]
      simp [addDepsGo, this]
    · rcases hg : get_fq_immediate_deps_mod is_std ams hd with _ | dd
      · simp [addDepsGo, hg]
      · simp [addDepsGo, hg]
        exact ih _ m h2 hsc

/-- C1 (counterexample): with module `a` unreadable and module `b` readable,
the run produces no module dictionary at all (the exception propagates out
of the loop), instead of isolating the failure to `a` and resolving `b`. -/
theorem resolver_failure_isolation_counterexample :
    add_immediate_deps_to_modules (fun _ => false)
      [⟨"a".data, Option.none⟩, ⟨"b".data, some []⟩] = Option.none := rfl

/-- C1 (amended): if any module's source cannot be opened or fails to
compile, the exception propagates out of `add_immediate_deps_to_modules`:
the whole resolution pass over the module dictionary aborts and no
module's direct imports are returned (there is no per-module isolation). -/
theorem resolver_failure_aborts_run (is_std : PyName → Bool) (mods : List PyModule)
    (m : PyModule) (hm : m ∈ mods) (hsc : m.scanned = Option.none) :
    add_immediate_deps_to_modules is_std mods = Option.none := by
  unfold add_immediate_deps_to_modules
  exact addDepsGo_fail is_std _ (sortByName mods) [] m (mem_sortByName m mods hm) hsc

/-- C1 (witness for the amended theorem): a one-module project whose module
is unreadable resolves to nothing. -/
theorem resolver_failure_aborts_run_witness :
    add_immediate_deps_to_modules (fun _ => false) [⟨"a".data, Option.none⟩] =
      Option.none :=
  resolver_failure_aborts_run (fun _ => false) [⟨"a".data, Option.none⟩]
    ⟨"a".data, Option.none⟩ (List.mem_singleton.mpr rfl) rfl

/-- Every string is a byte-prefix of itself. -/
theorem strPre_self (s : PyName) : strPre s s = true := by
  induction s with
  | nil => rfl
  | cons c cs ih => simp [strPre, ih]

/-- Replacement in the empty string is the empty string. -/
theorem replaceAllGo_nil (pat rep : PyName) :
    ∀ fuel, replaceAllGo pat rep [] fuel = [] := by
  intro fuel
  cases fuel with
  | zero => rfl
  | succ n =>
    have hcond : ¬ (pat ≠ [] ∧ strPre pat [] = true) := by
      rintro ⟨h1, h2⟩
      cases pat with
      | nil => exact h1 rfl
      | cons a as => simp [strPre] at h2
    unfold replaceAllGo
    rw [if_neg hcond]

/-- A substring of the right part is a substring of the concatenation. -/
theorem strContains_append_right (pat t : PyName) (h : strContains pat t = true) :
    ∀ s : PyName, strContains pat (s ++ t) = true := by
  intro s
  induction s with
  | nil => simpa using h
  | cons c cs ih => simp [strContains, ih]

/-- Replacing `pat` by nothing in `p ++ pat` strips the suffix when no
earlier position of the string starts an occurrence of `pat`. -/
theorem replaceAllGo_strip (pat : PyName) (hpat : pat ≠ []) :
    ∀ (fuel : Nat) (p : PyName), p.length < fuel →
      (∀ k, k < p.length → strPre pat ((p ++ pat).drop k) = false) →
      replaceAllGo pat [] (p ++ pat) fuel = p := by
  intro fuel
  induction fuel with
  | zero =>
    intro p hf _
    exact absurd hf (Nat.not_lt_zero _)
  | succ fuel ih =>
    intro p hf hocc
    cases p with
    | nil =>
      unfold replaceAllGo
      rw [if_pos ⟨hpat, by simpa using strPre_self pat⟩]
      simp [List.drop_length, replaceAllGo_nil]
    | cons c cs =>
      have hpre0 : strPre pat (c :: (cs ++ pat)) = false := by
        have := hocc 0 (by simp)
        simpa using this
      unfold replaceAllGo
      rw [if_neg (by simp [hpre0])]
      show c :: replaceAllGo pat [] (cs ++ pat) fuel = c :: cs
      have hlen : cs.length < fuel := by
        simp only [List.length_cons] at hf
        omega
      have hocc2 : ∀ k, k < cs.length → strPre pat ((cs ++ pat).drop k) = false := by
        intro k hk
        have := hocc (k + 1) (by simp only [List.length_cons]; omega)
        simpa using this
      rw [ih cs hlen hocc2]

/-- Mapping path separators to dots is the identity on separator-free text. -/
theorem slashToDot_id (p : PyName) (h : '/' ∉ p) : slashToDot p = p := by
  unfold slashToDot
  induction p with
  | nil => rfl
  | cons c cs ih =>
    rw [List.map_cons]
    simp only [List.mem_cons, not_or] at h
    rw [if_neg (fun hc => h.1 hc.symm), ih h.2]

/-- The separator map distributes over concatenation. -/
theorem slashToDot_append (a b : PyName) :
    slashToDot (a ++ b) = slashToDot a ++ slashToDot b :=
  List.map_append _ a b

/-- C8 (counterexample): a package-marker file directly at the root keeps
the literal leaf name `__init__` (the replacement needs a preceding dot),
while the claimed computation collapses it into the root's empty name. -/
theorem discovery_root_marker_counterexample :
    mod_name_in_dir "__init__.py".data = "__init__".data ∧
    mod_name_claimed "__init__.py".data = [] ∧
    mod_name_in_dir "__init__.py".data ≠ mod_name_claimed "__init__.py".data := by
  decide

/-- C8 (amended): the canonical dotted name is the relative path with
separators replaced by dots and the 3-character source suffix stripped;
every occurrence of the package-marker segment preceded by a dot is then
removed (so a marker directory collapses in the middle of a path as well),
a dot-free and separator-free directory's marker file resolves to that
directory's name, and a package-marker file directly at the root keeps the
literal leaf name `__init__`. -/
theorem discovery_canonical_name (p rel : PyName) :
    (mod_name_in_dir "__init__.py".data = "__init__".data) ∧
    ('.' ∉ p → '/' ∉ p →
      mod_name_in_dir (p ++ '/' :: "__init__.py".data) = p) ∧
    (mod_name_in_dir "a/__init__/b.py".data = "a.b".data) ∧
    (strContains "__init__".data
        ((slashToDot rel).take ((slashToDot rel).length - 3)) = false →
      mod_name_in_dir rel = (slashToDot rel).take ((slashToDot rel).length - 3)) := by
  refine ⟨by decide, ?_, by decide, ?_⟩
  · intro hdot hslash
    have hmap : slashToDot (p ++ '/' :: "__init__.py".data) =
        p ++ ".__init__.py".data := by
      rw [show ('/' :: "__init__.py".data : PyName) = "/__init__.py".data from rfl,
        slashToDot_append, slashToDot_id p hslash]
      rfl
    have hlen : (p ++ ".__init__.py".data).length - 3 = p.length + 9 := by
      rw [List.length_append, show (".__init__.py".data : PyName).length = 12 from rfl]
      omega
    have htake : (p ++ ".__init__.py".data).take
        ((p ++ ".__init__.py".data).length - 3) = p ++ ".__init__".data := by
      rw [hlen, List.take_append_eq_append_take,
        List.take_of_length_le (by omega : p.length ≤ p.length + 9)]
      congr 1
      rw [show p.length + 9 - p.length = 9 from by omega]
      rfl
    have hcont : strContains "__init__".data (p ++ ".__init__".data) = true :=
      strContains_append_right "__init__".data ".__init__".data (by decide) p
    have hrep : replaceAll ".__init__".data [] (p ++ ".__init__".data) = p := by
      unfold replaceAll
      have hlen2 : p.length < (p ++ ".__init__".data).length := by
        rw [List.length_append, show (".__init__".data : PyName).length = 9 from rfl]
        omega
      apply replaceAllGo_strip ".__init__".data (by decide) _ p hlen2
      intro k hk
      have hdrop : (p ++ ".__init__".data).drop k = p.drop k ++ ".__init__".data := by
        rw [List.drop_append_eq_append_drop, show k - p.length = 0 from by omega]
        rfl
      rw [hdrop]
      rcases hd : p.drop k with _ | ⟨c, cs⟩
      · exfalso
        have hlen3 := congrArg List.length hd
        simp at hlen3
        omega
      · have hc : c ∈ p := List.drop_subset k p (hd ▸ List.mem_cons_self c cs)
        have hcne : ¬ ('.' = c) := fun he => hdot (he ▸ hc)
        show strPre ('.' :: "__init__".data) (c :: (cs ++ ".__init__".data)) = false
        simp [strPre, hcne]
    simp only [mod_name_in_dir]
    rw [hmap, htake, if_pos hcont]
    exact hrep
  · intro h
    simp only [mod_name_in_dir]
    rw [if_neg (by simp [h])]

/-- C8 (witness for the amended theorem): `pkg/__init__.py` resolves to
`pkg`, and an ordinary file resolves to its dotted, suffix-stripped path. -/
theorem discovery_canonical_name_witness :
    mod_name_in_dir ("pkg".data ++ '/' :: "__init__.py".data) = "pkg".data ∧
    mod_name_in_dir "a/b.py".data =
      (slashToDot "a/b.py".data).take ((slashToDot "a/b.py".data).length - 3) :=
  ⟨(discovery_canonical_name "pkg".data "a/b.py".data).2.1 (by decide) (by decide),
   (discovery_canonical_name "pkg".data "a/b.py".data).2.2.2 (by decide)⟩

/-- Boolean membership agrees with list membership. -/
theorem memB_iff (x : PyName) (l : List PyName) : memB x l = true ↔ x ∈ l := by
  induction l with
  | nil => simp [memB]
  | cons y ys ih =>
    by_cases h : x = y
    · subst h
      simp [memB]
    · simp [memB, h, ih]

/-- The edge list after one graph step: the old edges plus the new edge,
flagged external exactly when the target is not a project key. -/
theorem addImport_edges (keys : List PyName) (nm : PyName) (st : Dag) (di : PyName) :
    (addImport keys nm st di).edges = st.edges ++ [(nm, di, !(memB di keys))] := by
  unfold addImport
  cases hmem : memB di keys with
  | true => simp [hmem]
  | false =>
    cases hv : memB di st.vendor with
    | true => simp [hmem, hv]
    | false => simp [hmem, hv]

/-- The node list after one graph step: a new external node is injected only
for an external dependency not seen before. -/
theorem addImport_nodes (keys : List PyName) (nm : PyName) (st : Dag) (di : PyName) :
    (addImport keys nm st di).nodes =
      if memB di keys = false ∧ memB di st.vendor = false
      then st.nodes ++ [(di, true)] else st.nodes := by
  unfold addImport
  cases hmem : memB di keys with
  | true => simp [hmem]
  | false =>
    cases hv : memB di st.vendor with
    | true => simp [hmem, hv]
    | false => simp [hmem, hv]

/-- The vendor set after one graph step mirrors the node injection. -/
theorem addImport_vendor (keys : List PyName) (nm : PyName) (st : Dag) (di : PyName) :
    (addImport keys nm st di).vendor =
      if memB di keys = false ∧ memB di st.vendor = false
      then st.vendor ++ [di] else st.vendor := by
  unfold addImport
  cases hmem : memB di keys with
  | true => simp [hmem]
  | false =>
    cases hv : memB di st.vendor with
    | true => simp [hmem, hv]
    | false => simp [hmem, hv]

/-- One graph step preserves the assembly invariant. -/
theorem addImport_inv (keys : List PyName) (nm : PyName) (st : Dag) (di : PyName)
    (h : DagInv keys st) : DagInv keys (addImport keys nm st di) := by
  obtain ⟨he, hn, hnd, hv⟩ := h
  refine ⟨?_, ?_, ?_, ?_⟩
  · intro s t f hmem
    rw [addImport_edges] at hmem
    rcases List.mem_append.mp hmem with h1 | h1
    · exact he s t f h1
    · simp at h1
      rcases h1 with ⟨rfl, rfl, rfl⟩
      rfl
  · intro nd f hmem
    rw [addImport_nodes] at hmem
    by_cases hc : memB di keys = false ∧ memB di st.vendor = false
    · rw [if_pos hc] at hmem
      rcases List.mem_append.mp hmem with h1 | h1
      · exact hn nd f h1
      · simp at h1
        rcases h1 with ⟨rfl, rfl⟩
        exact ⟨rfl, hc.1⟩
    · rw [if_neg hc] at hmem
      exact hn nd f hmem
  · rw [addImport_nodes]
    by_cases hc : memB di keys = false ∧ memB di st.vendor = false
    · rw [if_pos hc, List.map_append]
      apply List.Nodup.append hnd (List.nodup_singleton di)
      intro a ha hb
      simp at hb
      subst hb
      have h2 : memB a st.vendor = true := by
        rw [hv]
        exact (memB_iff a _).mpr ha
      rw [hc.2] at h2
      exact Bool.false_ne_true h2
    · rw [if_neg hc]
      exact hnd
  · rw [addImport_vendor, addImport_nodes]
    by_cases hc : memB di keys = false ∧ memB di st.vendor = false
    · rw [if_pos hc, if_pos hc, List.map_append, hv]
      rfl
    · rw [if_neg hc, if_neg hc]
      exact hv

/-- The per-module fold preserves the assembly invariant. -/
theorem innerFold_inv (keys : List PyName) (nm : PyName) :
    ∀ (dis : List PyName) (st : Dag), DagInv keys st →
      DagInv keys (dis.foldl (addImport keys nm) st) := by
  intro dis
  induction dis with
  | nil => exact fun st h => h
  | cons d ds ih => exact fun st h => ih _ (addImport_inv keys nm st d h)

/-- Edges only accumulate during the per-module fold. -/
theorem innerFold_edges_mono (keys : List PyName) (nm : PyName) :
    ∀ (dis : List PyName) (st : Dag) (e : PyName × PyName × Bool),
      e ∈ st.edges → e ∈ (dis.foldl (addImport keys nm) st).edges := by
  intro dis
  induction dis with
  | nil => exact fun st e h => h
  | cons d ds ih =>
    intro st e h
    apply ih
    rw [addImport_edges]
    exact List.mem_append_left _ h

/-- Node names only accumulate during the per-module fold. -/
theorem innerFold_nodes_fst_mono (keys : List PyName) (nm : PyName) :
    ∀ (dis : List PyName) (st : Dag) (x : PyName),
      x ∈ st.nodes.map Prod.fst →
      x ∈ ((dis.foldl (addImport keys nm) st).nodes.map Prod.fst) := by
  intro dis
  induction dis with
  | nil => exact fun st x h => h
  | cons d ds ih =>
    intro st x h
    apply ih
    rw [addImport_nodes]
    by_cases hc : memB d keys = false ∧ memB d st.vendor = false
    · rw [if_pos hc, List.map_append]
      exact List.mem_append_left _ h
    · rw [if_neg hc]
      exact h

/-- The per-module fold records an edge for each direct-import key. -/
theorem innerFold_edge_adds (keys : List PyName) (nm : PyName) :
    ∀ (dis : List PyName) (st : Dag) (di : PyName), di ∈ dis →
      (nm, di, !(memB di keys)) ∈ (dis.foldl (addImport keys nm) st).edges := by
  intro dis
  induction dis with
  | nil =>
    intro st di h
    cases h
  | cons d ds ih =>
    intro st di h
    rcases List.mem_cons.mp h with rfl | h2
    · apply innerFold_edges_mono keys nm ds _ _
      rw [addImport_edges]
      exact List.mem_append_right _ (List.mem_singleton.mpr rfl)
    · exact ih _ di h2

/-- After one graph step on an external dependency, its node exists. -/
theorem addImport_node_adds (keys : List PyName) (nm : PyName) (st : Dag) (di : PyName)
    (hext : memB di keys = false) (hv : st.vendor = st.nodes.map Prod.fst) :
    di ∈ ((addImport keys nm st di).nodes.map Prod.fst) := by
  rw [addImport_nodes]
  cases hvm : memB di st.vendor with
  | true =>
    rw [if_neg (by simp [hvm])]
    rw [hv] at hvm
    exact (memB_iff di _).mp hvm
  | false =>
    rw [if_pos ⟨hext, rfl⟩, List.map_append]
    exact List.mem_append_right _ (by simp)

/-- The per-module fold gives every external direct import a node. -/
theorem innerFold_node_adds (keys : List PyName) (nm : PyName) :
    ∀ (dis : List PyName) (st : Dag) (di : PyName), DagInv keys st → di ∈ dis →
      memB di keys = false →
      di ∈ ((dis.foldl (addImport keys nm) st).nodes.map Prod.fst) := by
  intro dis
  induction dis with
  | nil =>
    intro st di _ h
    cases h
  | cons d ds ih =>
    intro st di hinv h hext
    rcases List.mem_cons.mp h with rfl | h2
    · apply innerFold_nodes_fst_mono keys nm ds _ _
      exact addImport_node_adds keys nm st di hext hinv.2.2.2
    · exact ih _ di (addImport_inv keys nm st d hinv) h2 hext

/-- The whole-dict fold preserves the assembly invariant. -/
theorem outerFold_inv (keys : List PyName) :
    ∀ (rows : List (PyName × List PyName)) (st : Dag), DagInv keys st →
      DagInv keys (rows.foldl (fun st p => p.2.foldl (addImport keys p.1) st) st) := by
  intro rows
  induction rows with
  | nil => exact fun st h => h
  | cons r rs ih => exact fun st h => ih _ (innerFold_inv keys r.1 r.2 st h)

/-- Edges only accumulate during the whole-dict fold. -/
theorem outerFold_edges_mono (keys : List PyName) :
    ∀ (rows : List (PyName × List PyName)) (st : Dag) (e : PyName × PyName × Bool),
      e ∈ st.edges →
      e ∈ (rows.foldl (fun st p => p.2.foldl (addImport keys p.1) st) st).edges := by
  intro rows
  induction rows with
  | nil => exact fun st e h => h
  | cons r rs ih =>
    intro st e h
    exact ih _ e (innerFold_edges_mono keys r.1 r.2 st e h)

/-- Node names only accumulate during the whole-dict fold. -/
theorem outerFold_nodes_fst_mono (keys : List PyName) :
    ∀ (rows : List (PyName × List PyName)) (st : Dag) (x : PyName),
      x ∈ st.nodes.map Prod.fst →
      x ∈ ((rows.foldl (fun st p => p.2.foldl (addImport keys p.1) st) st).nodes.map
        Prod.fst) := by
  intro rows
  induction rows with
  | nil => exact fun st x h => h
  | cons r rs ih =>
    intro st x h
    exact ih _ x (innerFold_nodes_fst_mono keys r.1 r.2 st x h)

/-- The whole-dict fold records every module's direct-import edges. -/
theorem outerFold_edge_adds (keys : List PyName) :
    ∀ (rows : List (PyName × List PyName)) (st : Dag) (nm : PyName)
      (dis : List PyName) (di : PyName), (nm, dis) ∈ rows → di ∈ dis →
      (nm, di, !(memB di keys)) ∈
        (rows.foldl (fun st p => p.2.foldl (addImport keys p.1) st) st).edges := by
  intro rows
  induction rows with
  | nil =>
    intro st nm dis di h
    cases h
  | cons r rs ih =>
    intro st nm dis di h hdi
    rcases List.mem_cons.mp h with rfl | h2
    · apply outerFold_edges_mono keys rs _ _
      exact innerFold_edge_adds keys nm dis st di hdi
    · exact ih _ nm dis di h2 hdi

/-- The whole-dict fold gives every external direct import a node. -/
theorem outerFold_node_adds (keys : List PyName) :
    ∀ (rows : List (PyName × List PyName)) (st : Dag) (nm : PyName)
      (dis : List PyName) (di : PyName), DagInv keys st →
      (nm, dis) ∈ rows → di ∈ dis → memB di keys = false →
      di ∈ ((rows.foldl (fun st p => p.2.foldl (addImport keys p.1) st) st).nodes.map
        Prod.fst) := by
  intro rows
  induction rows with
  | nil =>
    intro st nm dis di _ h
    cases h
  | cons r rs ih =>
    intro st nm dis di hinv h hdi hext
    rcases List.mem_cons.mp h with rfl | h2
    · apply outerFold_nodes_fst_mono keys rs _ _
      exact innerFold_node_adds keys nm dis st di hinv hdi hext
    · exact ih _ nm dis di (innerFold_inv keys r.1 r.2 st hinv) h2 hdi hext

/-- C9: the assembled graph contains a directed edge for every module and
every key of its DirectImports, edges and injected nodes are marked
external exactly when the key is not a project module, and each external
name gets exactly one injected node (created on first occurrence,
reused afterwards). -/
theorem dag_assembly (mod_dict : List (PyName × List PyName)) :
    (∀ nm dis, (nm, dis) ∈ mod_dict → ∀ di ∈ dis,
      (nm, di, !(memB di (mod_dict.map Prod.fst))) ∈ (mod_dict_to_dag mod_dict).edges) ∧
    (∀ s t f, (s, t, f) ∈ (mod_dict_to_dag mod_dict).edges →
      f = !(memB t (mod_dict.map Prod.fst))) ∧
    (∀ nd f, (nd, f) ∈ (mod_dict_to_dag mod_dict).nodes →
      f = true ∧ memB nd (mod_dict.map Prod.fst) = false) ∧
    ((mod_dict_to_dag mod_dict).nodes.map Prod.fst).Nodup ∧
    (∀ nm dis, (nm, dis) ∈ mod_dict → ∀ di ∈ dis,
      memB di (mod_dict.map Prod.fst) = false →
      di ∈ ((mod_dict_to_dag mod_dict).nodes.map Prod.fst)) := by
  have hinit : DagInv (mod_dict.map Prod.fst) (⟨[], [], []⟩ : Dag) :=
    ⟨fun s t f h => absurd h (List.not_mem_nil _),
     fun nd f h => absurd h (List.not_mem_nil _),
     List.nodup_nil, rfl⟩
  have hfin := outerFold_inv (mod_dict.map Prod.fst) mod_dict ⟨[], [], []⟩ hinit
  refine ⟨?_, hfin.1, hfin.2.1, hfin.2.2.1, ?_⟩
  · intro nm dis h di hdi
    exact outerFold_edge_adds (mod_dict.map Prod.fst) mod_dict ⟨[], [], []⟩ nm dis di h hdi
  · intro nm dis h di hdi hext
    exact outerFold_node_adds (mod_dict.map Prod.fst) mod_dict ⟨[], [], []⟩ nm dis di
      hinit h hdi hext

/-- C9 (witness): a two-module project where both modules import the
external name `x`: the edge from `a` to `x` is present and flagged
external, and `x` has an injected node. -/
theorem dag_assembly_witness :
    ("a".data, "x".data, true) ∈
      (mod_dict_to_dag [("a".data, ["b".data, "x".data]), ("b".data, ["x".data])]).edges ∧
    "x".data ∈
      ((mod_dict_to_dag [("a".data, ["b".data, "x".data]),
        ("b".data, ["x".data])]).nodes.map Prod.fst) :=
  ⟨(dag_assembly [("a".data, ["b".data, "x".data]), ("b".data, ["x".data])]).1
      "a".data ["b".data, "x".data] (by decide) "x".data (by decide),
   (dag_assembly [("a".data, ["b".data, "x".data]), ("b".data, ["x".data])]).2.2.2.2
      "a".data ["b".data, "x".data] (by decide) "x".data (by decide) (by decide)⟩
